import Mathlib

/-!
Shallow embedding of `gocov/convert/convert.go` (github.com/hihoak/gocov).

The file models the data shapes and algorithms of the converter:

* `FileSet.position` models `go/token.FileSet.Position`: a `token.Pos` is a
  `Nat`; its byte offset is `pos - base`, and line/column are given by the
  file's line table, modelled as abstract functions of the position.
* `Stmt` models the `go/ast` statement nodes consulted by `StmtVisitor`
  (`convert.go:298-434`).  Expression operands are modelled by their source
  extent (`Expr`), which is the only data the visitor reads from them;
  receiver type expressions, whose structure `exprName` inspects, get their
  own inductive `TypeExpr`.
* `GoResult` models the outcome of running a Go function: a normal return,
  a returned `error` value, or a runtime panic (which in this program is
  never recovered, so it aborts the process).
-/

set_option linter.unusedVariables false

/-- Outcome of a Go computation: normal value, returned error, or panic. -/
inductive GoResult (α : Type) where
  | ok (val : α)
  | err (msg : String)
  | panicked (msg : String)
deriving Repr, DecidableEq

namespace GoResult

def bind {α β : Type} : GoResult α → (α → GoResult β) → GoResult β
  | .ok a, f => f a
  | .err m, _ => .err m
  | .panicked m, _ => .panicked m

/-- True exactly when the result is a returned `error` value. -/
def isErr {α : Type} : GoResult α → Bool
  | .err _ => true
  | _ => false

/-- True exactly when the result is a runtime panic. -/
def isPanic {α : Type} : GoResult α → Bool
  | .panicked _ => true
  | _ => false

end GoResult

/-- Model of `go/token.Position` (the fields used by `convert.go`):
byte offset, line and column. -/
structure Position where
  offset : Nat
  line : Nat
  col : Nat
deriving Repr, DecidableEq

/-- Model of a `go/token.FileSet` restricted to one file: a `token.Pos` is
a `Nat`; `base` is the file's base position, and `lineOf`/`colOf` are the
line table lookups. -/
structure FileSet where
  base : Nat
  lineOf : Nat → Nat
  colOf : Nat → Nat

/-- Model of `fset.Position(pos)`: offset is `pos - base`, line and column
come from the line table. -/
def FileSet.position (fs : FileSet) (p : Nat) : Position :=
  { offset := p - fs.base, line := fs.lineOf p, col := fs.colOf p }

/-- Model of the `extent` struct specialised to `StmtExtent`
(`convert.go:183-200`). -/
structure StmtExtent where
  startOffset : Nat
  startLine : Nat
  startCol : Nat
  endOffset : Nat
  endLine : Nat
  endCol : Nat
deriving Repr, DecidableEq

/-- Model of `FuncExtent` (`convert.go:193-197`): the `extent` fields plus
name and collected statement extents. -/
structure FuncExtent where
  startOffset : Nat
  startLine : Nat
  startCol : Nat
  endOffset : Nat
  endLine : Nat
  endCol : Nat
  name : String
  stmts : List StmtExtent
deriving Repr, DecidableEq

/-- An expression operand of a statement, as consulted by the visitor:
only its `Pos()` and `End()` are ever read. -/
structure Expr where
  pos : Nat
  end_ : Nat
deriving Repr, DecidableEq

/-- Model of the `go/ast` statement nodes handled by `StmtVisitor.VisitStmt`
(`convert.go:298-434`).  Fields are exactly the node data that `VisitStmt`,
`Pos()` or `End()` consult; list-valued expression fields are flattened to
the boundary positions those methods read (noted per constructor).

`assignStmt` keeps the operator token text `tok` even though `VisitStmt`
ignores it (it always measures `"="`); `incDecStmt` elides the token since
`ast.IncDecStmt.End` is always `TokPos + 2`. -/
inductive Stmt where
  /-- `ast.DeclStmt`; `decl` is the extent of `s.Decl`. -/
  | declStmt (decl : Expr)
  /-- `ast.EmptyStmt` with its semicolon position and implicit flag. -/
  | emptyStmt (semicolon : Nat) (implicit : Bool)
  /-- `ast.LabeledStmt`; `label` is the label identifier's extent. -/
  | labeledStmt (label : Expr) (stmt : Stmt)
  /-- `ast.ExprStmt`; `x` is the extent of `s.X`. -/
  | exprStmt (x : Expr)
  /-- `ast.SendStmt`; `chan_` is `s.Chan`, `value` is `s.Value`. -/
  | sendStmt (chan_ : Expr) (value : Expr)
  /-- `ast.IncDecStmt`; `x` is `s.X`, `tokPos` is `s.TokPos`. -/
  | incDecStmt (x : Expr) (tokPos : Nat)
  /-- `ast.AssignStmt`; `lhsPos` is `s.Lhs[0].Pos()`, `rhsEnd` is
  `s.Rhs[len-1].End()`, `tok` is the operator token's text. -/
  | assignStmt (lhsPos : Nat) (tokPos : Nat) (tok : String) (rhsEnd : Nat)
  /-- `ast.GoStmt`; `goPos` is `s.Go`, `call` the call expression. -/
  | goStmt (goPos : Nat) (call : Expr)
  /-- `ast.DeferStmt`; `deferPos` is `s.Defer`, `call` the call expression. -/
  | deferStmt (deferPos : Nat) (call : Expr)
  /-- `ast.ReturnStmt`; `results` are the result expressions. -/
  | returnStmt (returnPos : Nat) (results : List Expr)
  /-- `ast.BranchStmt`; `tok` is the keyword text (`break`, `goto`, ...). -/
  | branchStmt (tokPos : Nat) (tok : String) (label : Option Expr)
  /-- `ast.BlockStmt` with its brace positions and statement list. -/
  | blockStmt (lbrace : Nat) (list : List Stmt) (rbrace : Nat)
  /-- `ast.IfStmt`.  `body` is the `*ast.BlockStmt` body; `els` is `s.Else`
  (an `*ast.IfStmt` or `*ast.BlockStmt` in trees the parser produces). -/
  | ifStmt (ifPos : Nat) (init : Option Stmt) (cond : Option Expr)
      (body : Stmt) (els : Option Stmt)
  /-- `ast.CaseClause` with its `case` keyword and colon positions. -/
  | caseClause (casePos : Nat) (colon : Nat) (body : List Stmt)
  /-- `ast.SwitchStmt`; `body` is the switch's block. -/
  | switchStmt (switchPos : Nat) (init : Option Stmt) (body : Stmt)
  /-- `ast.TypeSwitchStmt`; `assign` is the `x := y.(type)` statement. -/
  | typeSwitchStmt (switchPos : Nat) (init : Option Stmt)
      (assign : Option Stmt) (body : Stmt)
  /-- `ast.CommClause` of a select statement. -/
  | commClause (casePos : Nat) (colon : Nat) (body : List Stmt)
  /-- `ast.SelectStmt`. -/
  | selectStmt (selectPos : Nat) (body : Stmt)
  /-- `ast.ForStmt`. -/
  | forStmt (forPos : Nat) (init : Option Stmt) (cond : Option Expr)
      (post : Option Stmt) (body : Stmt)
  /-- `ast.RangeStmt`; `x` is the ranged-over expression `s.X`. -/
  | rangeStmt (forPos : Nat) (x : Expr) (body : Stmt)

/-- Model of `ast.Stmt.Pos()` for the nodes above (position of the node's
first token). -/
def stmtPos : Stmt → Nat
  | .declStmt d => d.pos
  | .emptyStmt semi _ => semi
  | .labeledStmt lab _ => lab.pos
  | .exprStmt x => x.pos
  | .sendStmt ch _ => ch.pos
  | .incDecStmt x _ => x.pos
  | .assignStmt lhsPos _ _ _ => lhsPos
  | .goStmt goPos _ => goPos
  | .deferStmt deferPos _ => deferPos
  | .returnStmt returnPos _ => returnPos
  | .branchStmt tokPos _ _ => tokPos
  | .blockStmt lbrace _ _ => lbrace
  | .ifStmt ifPos _ _ _ _ => ifPos
  | .caseClause casePos _ _ => casePos
  | .switchStmt switchPos _ _ => switchPos
  | .typeSwitchStmt switchPos _ _ _ => switchPos
  | .commClause casePos _ _ => casePos
  | .selectStmt selectPos _ => selectPos
  | .forStmt forPos _ _ _ _ => forPos
  | .rangeStmt forPos _ _ => forPos

mutual
/-- Model of `ast.Stmt.End()` (position one past the node's last token),
following `go/ast`'s per-node definitions. -/
def stmtEnd : Stmt → Nat
  | .declStmt d => d.end_
  | .emptyStmt semi implicit => if implicit then semi else semi + 1
  | .labeledStmt _ s => stmtEnd s
  | .exprStmt x => x.end_
  | .sendStmt _ v => v.end_
  | .incDecStmt _ tokPos => tokPos + 2
  | .assignStmt _ _ _ rhsEnd => rhsEnd
  | .goStmt _ call => call.end_
  | .deferStmt _ call => call.end_
  | .returnStmt returnPos results =>
      -- go/ast: last result's End if any, else Return + 7 (len("return") + 1)
      (results.getLast?).elim (returnPos + 7) Expr.end_
  | .branchStmt tokPos tok label =>
      (label.elim (tokPos + tok.length) Expr.end_)
  | .blockStmt _ _ rbrace => rbrace + 1
  | .ifStmt _ _ _ body els =>
      match els with
      | some e => stmtEnd e
      | none => stmtEnd body
  | .caseClause _ colon body => stmtListEnd body (colon + 1)
  | .switchStmt _ _ body => stmtEnd body
  | .typeSwitchStmt _ _ _ body => stmtEnd body
  | .commClause _ colon body => stmtListEnd body (colon + 1)
  | .selectStmt _ body => stmtEnd body
  | .forStmt _ _ _ _ body => stmtEnd body
  | .rangeStmt _ _ body => stmtEnd body

/-- End position of the last statement of a list, or a default when empty
(used by `CaseClause.End` and `CommClause.End`). -/
def stmtListEnd : List Stmt → Nat → Nat
  | [], d => d
  | [s], _ => stmtEnd s
  | _ :: s :: rest, d => stmtListEnd (s :: rest) d
end

/-- Builds a `StmtExtent` from two `token.Pos` values the way
`collectExpr`/`collectToken` do (`convert.go:272-296`): both are converted
through `fset.Position`. -/
def mkExtent (fs : FileSet) (p q : Nat) : StmtExtent :=
  let s := fs.position p
  let e := fs.position q
  { startOffset := s.offset, startLine := s.line, startCol := s.col,
    endOffset := e.offset, endLine := e.line, endCol := e.col }

/-- Model of `collectExpr` (`convert.go:272-283`): records the node's own
extent, from `node.Pos()` to `node.End()`. -/
def exprExtent (fs : FileSet) (e : Expr) : StmtExtent :=
  mkExtent fs e.pos e.end_

/-- Model of `collectToken` (`convert.go:285-296`): records the extent from
`pos` to `pos + len(statement)`. -/
def tokenExtent (fs : FileSet) (pos : Nat) (statement : String) : StmtExtent :=
  mkExtent fs pos (pos + statement.length)

/-- Model of `backupToElse` (`convert.go:340`): `len("else ")`. -/
def backupToElse : Nat := ("else ").length

/-- Model of the else-branch rewrite inside the `*ast.IfStmt` case of
`VisitStmt` (`convert.go:338-353`): an else-if is wrapped in a synthesized
block whose `Lbrace` is backed up to the `else` keyword; a plain block has
its own `Lbrace` backed up in place; any other node shape panics. -/
def rewriteElse : Stmt → GoResult Stmt
  | .ifStmt ifPos init cond body els =>
      .ok (.blockStmt (ifPos - backupToElse)
        [.ifStmt ifPos init cond body els]
        (stmtEnd (.ifStmt ifPos init cond body els)))
  | .blockStmt lbrace list rbrace =>
      .ok (.blockStmt (lbrace - backupToElse) list rbrace)
  | _ => .panicked "unexpected node type in if"

mutual
/-- Model of `StmtVisitor.VisitStmt` (`convert.go:298-434`).  The result is
the sequence of statement extents appended to `v.function.stmts`, in
append order; a panic aborts the traversal. -/
def visitStmt (fs : FileSet) : Stmt → GoResult (List StmtExtent)
  | .declStmt d => .ok [exprExtent fs d]
  | .emptyStmt _ _ => .ok []
  | .labeledStmt _ s => visitStmt fs s
  | .exprStmt x => .ok [exprExtent fs x]
  | .sendStmt ch _ => .ok [exprExtent fs ch]
  | .incDecStmt x _ => .ok [exprExtent fs x]
  | .assignStmt _ tokPos _ _ => .ok [tokenExtent fs tokPos "="]
  | .goStmt goPos _ => .ok [tokenExtent fs goPos "go"]
  | .deferStmt deferPos _ => .ok [tokenExtent fs deferPos "defer"]
  | .returnStmt returnPos _ => .ok [tokenExtent fs returnPos "return"]
  | .branchStmt tokPos _ label =>
      .ok ((label.elim [] (fun l => [exprExtent fs l])) ++
        [tokenExtent fs tokPos "g"])
  | .blockStmt _ list _ => visitList fs list
  | .ifStmt _ init cond body els =>
      let head : GoResult (List StmtExtent) :=
        match init with
        | some i => visitStmt fs i
        | none =>
          match cond with
          | some c => .ok [exprExtent fs c]
          | none => .ok []
      GoResult.bind head fun a =>
      GoResult.bind (visitStmt fs body) fun b =>
      match els with
      | none => .ok (a ++ b)
      | some e => GoResult.bind (visitElse fs e) fun c => .ok (a ++ b ++ c)
  | .caseClause _ _ body => visitList fs body
  | .switchStmt switchPos init body =>
      let head : GoResult (List StmtExtent) :=
        match init with
        | some i => visitStmt fs i
        | none => .ok [tokenExtent fs switchPos "switch"]
      GoResult.bind head fun a =>
      GoResult.bind (visitStmt fs body) fun b => .ok (a ++ b)
  | .typeSwitchStmt switchPos init assign body =>
      let head : GoResult (List StmtExtent) :=
        match init with
        | some i => visitStmt fs i
        | none =>
          match assign with
          | some a => visitStmt fs a
          | none => .ok [tokenExtent fs switchPos "switch"]
      GoResult.bind head fun a =>
      GoResult.bind (visitStmt fs body) fun b => .ok (a ++ b)
  | .commClause _ _ body => visitList fs body
  | .selectStmt selectPos body =>
      GoResult.bind (visitStmt fs body) fun b =>
        .ok (tokenExtent fs selectPos "select" :: b)
  | .forStmt forPos init cond post body =>
      let head : GoResult (List StmtExtent) :=
        match init with
        | some i => visitStmt fs i
        | none =>
          match cond with
          | some c => .ok [exprExtent fs c]
          | none =>
            match post with
            | some p => visitStmt fs p
            | none => .ok [tokenExtent fs forPos "for"]
      GoResult.bind head fun a =>
      GoResult.bind (visitStmt fs body) fun b => .ok (a ++ b)
  | .rangeStmt _ x body =>
      GoResult.bind (visitStmt fs body) fun b =>
        .ok (exprExtent fs x :: b)
termination_by s => sizeOf s
decreasing_by all_goals (simp_wf <;> omega)

/-- Visits each statement of a block's `List` in order, concatenating the
recorded extents (the `*ast.BlockStmt` / clause-body loops of `VisitStmt`). -/
def visitList (fs : FileSet) : List Stmt → GoResult (List StmtExtent)
  | [] => .ok []
  | s :: rest =>
      GoResult.bind (visitStmt fs s) fun a =>
      GoResult.bind (visitList fs rest) fun b => .ok (a ++ b)
termination_by l => sizeOf l
decreasing_by all_goals (simp_wf <;> omega)

/-- Visit of `s.Else` after the rewrite of `convert.go:338-355`.  The
rewritten node is always a block whose brace positions the visitor never
reads, so the visit reduces to visiting the block's statement list; the
lemma `visitElse_eq_rewrite` below proves this equal to
`rewriteElse` followed by `visitStmt`. -/
def visitElse (fs : FileSet) : Stmt → GoResult (List StmtExtent)
  | .ifStmt ifPos init cond body els =>
      visitStmt fs (.ifStmt ifPos init cond body els)
  | .blockStmt _ list _ => visitList fs list
  | _ => .panicked "unexpected node type in if"
termination_by e => sizeOf e + 1
decreasing_by all_goals (simp_wf <;> omega)
end

/-- Model of the receiver type expressions inspected by `exprName`
(`convert.go:219-230`): star, index, identifier, and the default bucket
for every other `ast.Expr` shape. -/
inductive TypeExpr where
  | star (x : TypeExpr)
  | index (x : TypeExpr) (idx : TypeExpr)
  | ident (name : String)
  | other
deriving Repr, DecidableEq

/-- Model of `exprName` (`convert.go:219-230`). -/
def exprName : TypeExpr → String
  | .star y => exprName y
  | .index y i => exprName y ++ "[" ++ exprName i ++ "]"
  | .ident n => n
  | .other => ""

/-- Model of `ast.FuncDecl` as consulted by the discoverer: the position of
the `func` keyword (`d.Type.Func`, which is `d.Pos()`), the declared name,
the receiver's type expression (`f.Recv.List[0].Type`) when a receiver is
present, and the body block. -/
structure FuncDecl where
  pos : Nat
  name : String
  recv : Option TypeExpr
  body : Stmt

/-- Model of `functionName` (`convert.go:208-217`). -/
def functionName (f : FuncDecl) : String :=
  match f.recv with
  | none => f.name
  | some t => exprName t ++ "." ++ f.name

/-- A function-bearing node the `FuncVisitor` reacts to
(`convert.go:236-242`): a declaration or a function literal.  A literal's
`pos` is its first token (`ast.FuncLit.Pos()`). -/
inductive FuncNode where
  | fdecl (d : FuncDecl)
  | flit (pos : Nat) (body : Stmt)

/-- Position of the node's first token (`node.Pos()`). -/
def nodePos : FuncNode → Nat
  | .fdecl d => d.pos
  | .flit p _ => p

/-- Body block of the node. -/
def nodeBody : FuncNode → Stmt
  | .fdecl d => d.body
  | .flit _ b => b

/-- Model of `node.End()`: for both `ast.FuncDecl` (with a body) and
`ast.FuncLit` this is the body's `End()`. -/
def nodeEnd (n : FuncNode) : Nat := stmtEnd (nodeBody n)

/-- The name `FuncVisitor.Visit` assigns (`convert.go:236-248`): a
declaration gets `functionName`, a literal gets the empty string, and an
empty name is replaced by the synthetic `"@<line>:<column>"` of the node's
start position. -/
def funcNodeName (fs : FileSet) (n : FuncNode) : String :=
  let name :=
    match n with
    | .fdecl d => functionName d
    | .flit _ _ => ""
  if name = "" then
    let start := fs.position (nodePos n)
    "@" ++ toString start.line ++ ":" ++ toString start.col
  else name

/-- Model of the function-discovery step of `FuncVisitor.Visit`
(`convert.go:243-263`) for one function-bearing node: build the
`FuncExtent` from the node's start/end positions and name, then run the
statement visitor on the body to fill `stmts`. -/
def visitFunc (fs : FileSet) (n : FuncNode) : GoResult FuncExtent :=
  let start := fs.position (nodePos n)
  let end_ := fs.position (nodeEnd n)
  GoResult.bind (visitStmt fs (nodeBody n)) fun exts =>
    .ok { startOffset := start.offset, startLine := start.line,
          startCol := start.col, endOffset := end_.offset,
          endLine := end_.line, endCol := end_.col,
          name := funcNodeName fs n, stmts := exts }

/-- Well-formedness of an expression's extent inside `[lo, hi]`. -/
def wfExpr (lo hi : Nat) (e : Expr) : Bool :=
  lo ≤ e.pos && e.end_ ≤ hi

/-- Well-formedness of an optional expression. -/
def wfExprOpt (lo hi : Nat) : Option Expr → Bool
  | none => true
  | some e => wfExpr lo hi e

mutual
/-- Positional well-formedness of a statement inside `[lo, hi]`: every node
position the visitor may read lies in the interval, and every keyword or
operator token fits inside it together with its text.  This is what
`go/parser` guarantees for the body of a function whose extent is
`[lo, hi]`. -/
def wfStmt (lo hi : Nat) : Stmt → Bool
  | .declStmt d => wfExpr lo hi d
  | .emptyStmt semi _ => lo ≤ semi && semi + 1 ≤ hi
  | .labeledStmt lab s => wfExpr lo hi lab && wfStmt lo hi s
  | .exprStmt x => wfExpr lo hi x
  | .sendStmt ch v => wfExpr lo hi ch && wfExpr lo hi v
  | .incDecStmt x tokPos => wfExpr lo hi x && lo ≤ tokPos && tokPos + 2 ≤ hi
  | .assignStmt lhsPos tokPos tok rhsEnd =>
      lo ≤ lhsPos && lo ≤ tokPos && tokPos + tok.length ≤ hi &&
      1 ≤ tok.length && rhsEnd ≤ hi
  | .goStmt goPos call => lo ≤ goPos && goPos + 2 ≤ hi && wfExpr lo hi call
  | .deferStmt deferPos call =>
      lo ≤ deferPos && deferPos + 5 ≤ hi && wfExpr lo hi call
  | .returnStmt returnPos results =>
      lo ≤ returnPos && returnPos + 6 ≤ hi &&
      results.all (wfExpr lo hi)
  | .branchStmt tokPos tok label =>
      lo ≤ tokPos && tokPos + tok.length ≤ hi && 1 ≤ tok.length &&
      wfExprOpt lo hi label
  | .blockStmt lbrace list rbrace =>
      lo ≤ lbrace && rbrace + 1 ≤ hi && wfList lo hi list
  | .ifStmt ifPos init cond body els =>
      lo ≤ ifPos && wfOpt lo hi init && wfExprOpt lo hi cond &&
      wfStmt lo hi body && wfOpt lo hi els
  | .caseClause casePos colon body =>
      lo ≤ casePos && colon + 1 ≤ hi && wfList lo hi body
  | .switchStmt switchPos init body =>
      lo ≤ switchPos && switchPos + 6 ≤ hi && wfOpt lo hi init &&
      wfStmt lo hi body
  | .typeSwitchStmt switchPos init assign body =>
      lo ≤ switchPos && switchPos + 6 ≤ hi && wfOpt lo hi init &&
      wfOpt lo hi assign && wfStmt lo hi body
  | .commClause casePos colon body =>
      lo ≤ casePos && colon + 1 ≤ hi && wfList lo hi body
  | .selectStmt selectPos body =>
      lo ≤ selectPos && selectPos + 6 ≤ hi && wfStmt lo hi body
  | .forStmt forPos init cond post body =>
      lo ≤ forPos && forPos + 3 ≤ hi && wfOpt lo hi init &&
      wfExprOpt lo hi cond && wfOpt lo hi post && wfStmt lo hi body
  | .rangeStmt forPos x body =>
      lo ≤ forPos && forPos + 3 ≤ hi && wfExpr lo hi x && wfStmt lo hi body
termination_by s => sizeOf s
decreasing_by all_goals (simp_wf <;> omega)

/-- Well-formedness of each statement of a list. -/
def wfList (lo hi : Nat) : List Stmt → Bool
  | [] => true
  | s :: rest => wfStmt lo hi s && wfList lo hi rest
termination_by l => sizeOf l
decreasing_by all_goals (simp_wf <;> omega)

/-- Well-formedness of an optional statement. -/
def wfOpt (lo hi : Nat) : Option Stmt → Bool
  | none => true
  | some s => wfStmt lo hi s
termination_by o => sizeOf o
decreasing_by all_goals simp_wf
end

/-- Model of `cover.ProfileBlock`: the block's start/end line and column,
statement count, and hit count (`Count` is converted through `int64` when
accumulated, modelled as `Int`). -/
structure ProfileBlock where
  startLine : Nat
  startCol : Nat
  endLine : Nat
  endCol : Nat
  numStmt : Nat
  count : Int
deriving Repr, DecidableEq

/-- Model of one `cover.Profile`: the file name of the entry and its
blocks. -/
structure Profile where
  fileName : String
  blocks : List ProfileBlock
deriving Repr, DecidableEq

/-- The break condition of the matching loop (`convert.go:155`): block `b`
is past the end of statement `s`. -/
def blockPast (b : ProfileBlock) (s : StmtExtent) : Bool :=
  decide (s.endLine < b.startLine) ||
    (decide (b.startLine = s.endLine) && decide (s.endCol ≤ b.startCol))

/-- The continue condition of the matching loop (`convert.go:159`): block
`b` is before the beginning of statement `s`. -/
def blockBefore (b : ProfileBlock) (s : StmtExtent) : Bool :=
  decide (b.endLine < s.startLine) ||
    (decide (b.endLine = s.startLine) && decide (b.endCol ≤ s.startCol))

/-- Overlap: the block is neither past nor before the statement, which is
exactly when `convert.go:164` adds its hit count. -/
def overlaps (b : ProfileBlock) (s : StmtExtent) : Bool :=
  !(blockPast b s) && !(blockBefore b s)

/-- Model of the inner matching loop of `convertProfile`
(`convert.go:153-166`) for one statement: scan the blocks in order,
stop at the first block past the statement, skip blocks before it, and
accumulate `b.Count` of the rest onto `Reached` (which starts at 0). -/
def reachedCount (s : StmtExtent) : List ProfileBlock → Int
  | [] => 0
  | b :: bs =>
      if blockPast b s then 0
      else if blockBefore b s then reachedCount s bs
      else b.count + reachedCount s bs

/-- Model of `gocov.Statement` as serialized: start/end byte offsets and
the accumulated `Reached` counter. -/
structure GStatement where
  start : Nat
  end_ : Nat
  reached : Int
deriving Repr, DecidableEq

/-- Model of `gocov.Function`: name, file, extent offsets, statements. -/
structure GFunction where
  name : String
  file : String
  start : Nat
  end_ : Nat
  statements : List GStatement
deriving Repr, DecidableEq

/-- Model of `gocov.Package`: logical name and accumulated functions. -/
structure GPackage where
  name : String
  functions : List GFunction
deriving Repr, DecidableEq

/-- Model of `goPackages.Package` restricted to the fields the converter
loads (`NeedName | NeedCompiledGoFiles`): `PkgPath` and
`CompiledGoFiles`. -/
structure GoPkg where
  pkgPath : String
  compiledGoFiles : List String
deriving Repr, DecidableEq

/-- Index of the last occurrence of `c` in `l`, if any. -/
def lastIdxOf (c : Char) (l : List Char) : Option Nat :=
  match l.reverse.findIdx? (fun x => x = c) with
  | none => none
  | some i => some (l.length - 1 - i)

/-- Model of Go `path.Split`: split after the final slash; no slash gives
an empty directory part. -/
def pathSplit (p : String) : String × String :=
  let cs := p.toList
  match lastIdxOf '/' cs with
  | none => ("", p)
  | some i => (String.mk (cs.take (i + 1)), String.mk (cs.drop (i + 1)))

/-- Model of Go `strings.TrimSuffix(s, "/")`: drop one trailing slash. -/
def trimSlashSuffix (s : String) : String :=
  match s.toList.getLast? with
  | some c => if c = '/' then String.mk s.toList.dropLast else s
  | none => s

/-- Model of Go `filepath.Base` for the clean, non-empty absolute paths a
package resolver returns (the general function also normalizes trailing
separators, which such paths do not contain). -/
def pathBase (p : String) : String :=
  if p = "" then "." else (pathSplit p).2

/-- Model of Go `path.Dir` for the clean paths found in coverage profiles
(the general function also applies `path.Clean`, the identity on them). -/
def pathDir (p : String) : String :=
  let d := trimSlashSuffix (pathSplit p).1
  if d = "" then "." else d

/-- First-match association-list lookup (models a Go map read; keys are
unique by construction wherever this is used). -/
def lookupAssoc {α : Type} : List (String × α) → String → Option α
  | [], _ => none
  | (k, v) :: rest, key => if k = key then some v else lookupAssoc rest key

/-- Association-list insert with overwrite (models a Go map write). -/
def insertAssoc {α : Type} : List (String × α) → String → α → List (String × α)
  | [], k, v => [(k, v)]
  | (k0, v0) :: rest, k, v =>
      if k0 = k then (k0, v) :: rest else (k0, v0) :: insertAssoc rest k v

/-- Model of `pkgmap` construction (`convert.go:78-81`): index the loaded
packages by `PkgPath`, later entries overwriting earlier ones. -/
def buildPkgmap (pkgs : List GoPkg) : List (String × GoPkg) :=
  pkgs.foldl (fun m pkg => insertAssoc m pkg.pkgPath pkg) []

/-- Model of the `converter.packages` update in `convertProfile`
(`convert.go:118-122` and `148`): find the package by path, creating it if
absent, and append the new functions to it.  The Go map is modelled as an
insertion-ordered list keyed by `GPackage.name`. -/
def addFunctions : List GPackage → String → List GFunction → List GPackage
  | [], pkgPath, fns => [{ name := pkgPath, functions := fns }]
  | q :: qs, pkgPath, fns =>
      if q.name = pkgPath then
        { name := q.name, functions := q.functions ++ fns } :: qs
      else q :: addFunctions qs pkgPath fns

/-- Model of `converter.convertProfile` (`convert.go:117-169`): find the
function and statement extents of the file (the parse step is the
`findFuncs` oracle), build `gocov.Function`s whose statements carry the
matched `Reached` counts, and append them to the package accumulator. -/
def convertProfile (findFuncs : String → GoResult (List FuncExtent))
    (packages : List GPackage) (p : Profile)
    (absFilePath pkgPath : String) : GoResult (List GPackage) :=
  GoResult.bind (findFuncs absFilePath) fun extents =>
    let fns := extents.map fun fe =>
      { name := fe.name, file := absFilePath,
        start := fe.startOffset, end_ := fe.endOffset,
        statements := fe.stmts.map fun se =>
          { start := se.startOffset, end_ := se.endOffset,
            reached := reachedCount se p.blocks } : GFunction }
    .ok (addFunctions packages pkgPath fns)

/-- Go's runtime panic message for dereferencing a nil pointer. -/
def nilDeref : String :=
  "runtime error: invalid memory address or nil pointer dereference"

/-- The inner loop of the profile-entry step (`convert.go:87-93`): for each
compiled file of the package whose base name matches the entry's file
name, run `convertProfile`; a returned error is wrapped with the entry's
file name (`convert.go:90`). -/
def entryFiles (findFuncs : String → GoResult (List FuncExtent))
    (p : Profile) (pkgPath filename : String) :
    List String → List GPackage → GoResult (List GPackage)
  | [], packages => .ok packages
  | abspath :: rest, packages =>
      if pathBase abspath = filename then
        match convertProfile findFuncs packages p abspath pkgPath with
        | .ok packages2 => entryFiles findFuncs p pkgPath filename rest packages2
        | .err m => .err ("convert profile " ++ p.fileName ++ ": " ++ m)
        | .panicked m => .panicked m
      else entryFiles findFuncs p pkgPath filename rest packages

/-- Model of one iteration of the profile loop (`convert.go:83-94`): split
the entry's file name, trim the trailing slash, look the directory up in
`pkgmap`, and scan the package's compiled files.  When the lookup misses,
the Go code receives `nil` and dereferences `pkg.CompiledGoFiles`
(`convert.go:87`), a runtime panic. -/
def profileEntry (findFuncs : String → GoResult (List FuncExtent))
    (pkgmap : List (String × GoPkg)) (packages : List GPackage)
    (p : Profile) : GoResult (List GPackage) :=
  let split := pathSplit p.fileName
  let pkgpath := trimSlashSuffix split.1
  match lookupAssoc pkgmap pkgpath with
  | none => .panicked nilDeref
  | some pkg => entryFiles findFuncs p pkg.pkgPath split.2
      pkg.compiledGoFiles packages

/-- Folds `profileEntry` over all entries of one profile input. -/
def convertAll (findFuncs : String → GoResult (List FuncExtent))
    (pkgmap : List (String × GoPkg)) :
    List Profile → List GPackage → GoResult (List GPackage)
  | [], packages => .ok packages
  | p :: rest, packages =>
      match profileEntry findFuncs pkgmap packages p with
      | .ok packages2 => convertAll findFuncs pkgmap rest packages2
      | .err m => .err m
      | .panicked m => .panicked m

/-- Model of the unique-directory collection (`convert.go:58-69`): the
directories of the entries' file names, first occurrence order,
deduplicated. -/
def uniqDirs (profiles : List Profile) : List String :=
  profiles.foldl
    (fun acc pr =>
      let d := pathDir pr.fileName
      if acc.contains d then acc else acc ++ [d]) []

/-- Modelled from the spec: `gocovutil.Packages.AddPackage` is code of this
repository that is not under `src/` (only its caller `convert.go:96-98`
is).  Per the spec, packages accumulate across inputs by logical name with
their functions appended, never deduplicated, and the output order must be
deterministic; this is modelled as ordered insertion by package name,
merging an existing entry by appending the new functions. -/
def addPackage (ps : List GPackage) (p : GPackage) : List GPackage :=
  match ps with
  | [] => [p]
  | q :: qs =>
      if q.name < p.name then q :: addPackage qs p
      else if q.name = p.name then
        { name := q.name, functions := q.functions ++ p.functions } :: qs
      else p :: q :: qs

/-- The external collaborators of the conversion, all deterministic
functions of the fixed inputs: the profile reader (`cover.ParseProfiles`),
the package resolver (`goPackages.Load`), the source parse plus function
discovery (`findFuncs`, `convert.go:172-181`), and the output encoder
(`marshalJson`'s `json.Encoder`, producing bytes). -/
structure Env where
  parseProfiles : String → Except String (List Profile)
  loadPackages : List String → Except String (List GoPkg)
  findFuncs : String → GoResult (List FuncExtent)
  encode : List GPackage → List Nat

/-- Model of one iteration of the outer loop of `ConvertProfiles`
(`convert.go:49-99`) on one input file: parse the profiles, load the
packages, convert every entry into a fresh per-file accumulator, then add
each accumulated package to `ps`.  `iter` is the iteration order of the
`converter.packages` map range at `convert.go:96`, which Go does not
specify; it is passed as an explicit parameter. -/
def convertOneFile (env : Env) (iter : List GPackage → List GPackage)
    (fileName : String) (ps : List GPackage) : GoResult (List GPackage) :=
  match env.parseProfiles fileName with
  | .error m => .err m
  | .ok profiles =>
    match env.loadPackages (uniqDirs profiles) with
    | .error m => .err ("load packages: " ++ m)
    | .ok pkgs =>
      match convertAll env.findFuncs (buildPkgmap pkgs) profiles [] with
      | .ok conv => .ok ((iter conv).foldl addPackage ps)
      | .err m => .err m
      | .panicked m => .panicked m

/-- The outer loop of `ConvertProfiles` over all input file names, with the
running input index selecting the map iteration order for that file. -/
def ConvertProfilesAux (env : Env)
    (iters : Nat → List GPackage → List GPackage) :
    Nat → List String → List GPackage → GoResult (List GPackage)
  | _, [], ps => .ok ps
  | i, f :: rest, ps =>
      match convertOneFile env (iters i) f ps with
      | .ok ps2 => ConvertProfilesAux env iters (i + 1) rest ps2
      | .err m => .err m
      | .panicked m => .panicked m

/-- Model of `ConvertProfiles` (`convert.go:44-105`): run the conversion
and encode the accumulated packages into output bytes. -/
def ConvertProfiles (env : Env)
    (iters : Nat → List GPackage → List GPackage)
    (filenames : List String) : GoResult (List Nat) :=
  GoResult.bind (ConvertProfilesAux env iters 0 filenames []) fun ps =>
    .ok (env.encode ps)

/-- Ascending-by-start-position order on coverage blocks (the precondition
the profile format guarantees per file). -/
def blockStartLe (b1 b2 : ProfileBlock) : Prop :=
  b1.startLine < b2.startLine ∨
    (b1.startLine = b2.startLine ∧ b1.startCol ≤ b2.startCol)

instance : DecidableRel blockStartLe := by
  intro b1 b2
  unfold blockStartLe
  infer_instance

/-- Whether a statement is one of the two node shapes the else-branch
rewrite (`convert.go:341-353`) expects; anything else hits the
`default: panic` arm. -/
def isIfOrBlock : Stmt → Bool
  | .ifStmt _ _ _ _ _ => true
  | .blockStmt _ _ _ => true
  | _ => false

/-! ### Theorems -/

theorem blockPast_iff (b : ProfileBlock) (s : StmtExtent) :
    blockPast b s = true ↔
      s.endLine < b.startLine ∨
        (b.startLine = s.endLine ∧ s.endCol ≤ b.startCol) := by
  simp [blockPast]

theorem blockBefore_iff (b : ProfileBlock) (s : StmtExtent) :
    blockBefore b s = true ↔
      b.endLine < s.startLine ∨
        (b.endLine = s.startLine ∧ b.endCol ≤ s.startCol) := by
  simp [blockBefore]

theorem blockPast_mono (s : StmtExtent) {b b' : ProfileBlock}
    (h : blockStartLe b b') (hp : blockPast b s = true) :
    blockPast b' s = true := by
  rw [blockPast_iff] at hp ⊢
  rcases h with h | ⟨h1, h2⟩ <;> omega

theorem sum_map_zero {α : Type} (l : List α) (f : α → Int)
    (h : ∀ x ∈ l, f x = 0) : (l.map f).sum = 0 := by
  induction l with
  | nil => rfl
  | cons x xs ih =>
      simp only [List.map_cons, List.sum_cons, h x (by simp),
        ih (fun y hy => h y (by simp [hy])), add_zero]

/-- C1.  Block Matcher overlap law: with the blocks of a file pre-sorted
ascending by start position, the matching loop of `convertProfile`
(`convert.go:152-166`) gives a statement a final `Reached` equal to the sum
of the hit counts of exactly those blocks that are neither past the
statement (`b.startLine > s.endLine`, or equal end line with
`b.startCol >= s.endCol`) nor before it (`b.endLine < s.startLine`, or
equal start line with `b.endCol <= s.startCol`): contributions of several
overlapping blocks are summed onto the counter, which starts at 0, not
maximised or overwritten. -/
theorem C1_block_matcher_overlap (s : StmtExtent) (blocks : List ProfileBlock)
    (hsorted : blocks.Sorted blockStartLe) :
    reachedCount s blocks =
      (blocks.map (fun b => if overlaps b s then b.count else 0)).sum := by
  induction blocks with
  | nil => rfl
  | cons b bs ih =>
      rcases (List.sorted_cons.mp hsorted) with ⟨hb, hrest⟩
      by_cases hpast : blockPast b s = true
      · rw [reachedCount, if_pos hpast]
        have hz : ∀ b' ∈ b :: bs,
            (if overlaps b' s then b'.count else 0) = 0 := by
          intro b' hb'
          have hp' : blockPast b' s = true := by
            rcases List.mem_cons.mp hb' with rfl | hmem
            · exact hpast
            · exact blockPast_mono s (hb b' hmem) hpast
          simp [overlaps, hp']
        exact (sum_map_zero _ _ hz).symm
      · rw [reachedCount, if_neg hpast]
        have hp : blockPast b s = false := by
          cases h : blockPast b s
          · rfl
          · exact absurd h hpast
        by_cases hbef : blockBefore b s = true
        · rw [if_pos hbef]
          have hov : overlaps b s = false := by simp [overlaps, hbef]
          simp [hov, ih hrest]
        · rw [if_neg hbef]
          have hb2 : blockBefore b s = false := by
            cases h : blockBefore b s
            · rfl
            · exact absurd h hbef
          have hov : overlaps b s = true := by simp [overlaps, hp, hb2]
          simp [hov, ih hrest]

/-- Witness for C1 at a concrete statement and sorted block list: one block
before, two overlapping (hit counts 5 and 11), one past; the loop sums the
two overlapping counts, 16. -/
theorem C1_block_matcher_overlap_witness :
    reachedCount ⟨0, 2, 5, 0, 4, 10⟩
        [⟨1, 1, 1, 20, 1, 7⟩, ⟨2, 1, 3, 1, 1, 5⟩,
          ⟨3, 1, 4, 2, 1, 11⟩, ⟨4, 10, 5, 1, 1, 100⟩] =
      (([⟨1, 1, 1, 20, 1, 7⟩, ⟨2, 1, 3, 1, 1, 5⟩,
          ⟨3, 1, 4, 2, 1, 11⟩, ⟨4, 10, 5, 1, 1, 100⟩] :
            List ProfileBlock).map
        (fun b => if overlaps b ⟨0, 2, 5, 0, 4, 10⟩ then b.count else 0)).sum ∧
    reachedCount ⟨0, 2, 5, 0, 4, 10⟩
        [⟨1, 1, 1, 20, 1, 7⟩, ⟨2, 1, 3, 1, 1, 5⟩,
          ⟨3, 1, 4, 2, 1, 11⟩, ⟨4, 10, 5, 1, 1, 100⟩] = 16 :=
  ⟨C1_block_matcher_overlap _ _ (by decide), by decide⟩

theorem addPackage_nil (p : GPackage) : addPackage [] p = [p] := rfl

theorem addPackage_cons_lt {q p : GPackage} (h : q.name < p.name)
    (qs : List GPackage) :
    addPackage (q :: qs) p = q :: addPackage qs p := by
  simp [addPackage, h]

theorem addPackage_cons_eq {q p : GPackage} (h : q.name = p.name)
    (qs : List GPackage) :
    addPackage (q :: qs) p =
      { name := q.name, functions := q.functions ++ p.functions } :: qs := by
  have hnlt : ¬ q.name < p.name := by rw [h]; exact lt_irrefl _
  simp [addPackage, hnlt, h]

theorem addPackage_cons_gt {q p : GPackage} (h : p.name < q.name)
    (qs : List GPackage) :
    addPackage (q :: qs) p = p :: q :: qs := by
  have hnlt : ¬ q.name < p.name := lt_asymm h
  have hne : ¬ q.name = p.name := ne_of_gt h
  simp [addPackage, hnlt, hne]

theorem addPackage_comm_of_lt {a b : GPackage} (hab : a.name < b.name) :
    ∀ ps : List GPackage,
      addPackage (addPackage ps a) b = addPackage (addPackage ps b) a := by
  intro ps
  induction ps with
  | nil =>
      rw [addPackage_nil, addPackage_nil, addPackage_cons_lt hab,
        addPackage_cons_gt hab, addPackage_nil]
  | cons q qs ih =>
      rcases lt_trichotomy q.name a.name with h1 | h1 | h1
      · rw [addPackage_cons_lt h1, addPackage_cons_lt (h1.trans hab),
          addPackage_cons_lt (h1.trans hab), addPackage_cons_lt h1, ih]
      · rw [addPackage_cons_eq h1]
        have hqb : q.name < b.name := by rw [h1]; exact hab
        rw [addPackage_cons_lt (show
          ({ name := q.name, functions := q.functions ++ a.functions } :
            GPackage).name < b.name from hqb)]
        rw [addPackage_cons_lt hqb, addPackage_cons_eq h1]
      · rw [addPackage_cons_gt h1, addPackage_cons_lt hab]
        rcases lt_trichotomy q.name b.name with h2 | h2 | h2
        · rw [addPackage_cons_lt h2, addPackage_cons_gt h1]
        · rw [addPackage_cons_eq h2,
            addPackage_cons_gt (show a.name <
              ({ name := q.name, functions := q.functions ++ b.functions } :
                GPackage).name from h1)]
        · rw [addPackage_cons_gt h2, addPackage_cons_gt hab]

theorem addPackage_comm {a b : GPackage} (h : a.name ≠ b.name) :
    ∀ ps : List GPackage,
      addPackage (addPackage ps a) b = addPackage (addPackage ps b) a := by
  intro ps
  rcases lt_trichotomy a.name b.name with hab | hab | hab
  · exact addPackage_comm_of_lt hab ps
  · exact absurd hab h
  · exact (addPackage_comm_of_lt hab ps).symm

theorem foldl_addPackage_perm :
    ∀ {l l' : List GPackage}, l.Perm l' →
      (l.map GPackage.name).Nodup →
      ∀ ps : List GPackage, l.foldl addPackage ps = l'.foldl addPackage ps := by
  intro l l' hp
  induction hp with
  | nil => intro _ ps; rfl
  | cons x hperm ih =>
      intro hn ps
      simp only [List.map_cons, List.nodup_cons] at hn
      simp only [List.foldl_cons]
      exact ih hn.2 (addPackage ps x)
  | swap x y l =>
      intro hn ps
      simp only [List.map_cons, List.nodup_cons] at hn
      have hxy : y.name ≠ x.name := fun hc => hn.1 (by simp [hc])
      simp only [List.foldl_cons]
      rw [addPackage_comm hxy ps]
  | trans h1 h2 ih1 ih2 =>
      intro hn ps
      rw [ih1 hn ps]
      exact ih2 ((h1.map GPackage.name).nodup hn) ps

theorem addFunctions_map_name (ps : List GPackage) (k : String)
    (fns : List GFunction) :
    (addFunctions ps k fns).map GPackage.name =
      if k ∈ ps.map GPackage.name then ps.map GPackage.name
      else ps.map GPackage.name ++ [k] := by
  induction ps with
  | nil => simp [addFunctions]
  | cons q qs ih =>
      by_cases h : q.name = k
      · simp [addFunctions, h]
      · rw [show addFunctions (q :: qs) k fns = q :: addFunctions qs k fns
          by simp [addFunctions, h]]
        simp only [List.map_cons, ih, List.mem_cons]
        by_cases hm : k ∈ List.map GPackage.name qs
        · simp [hm]
        · simp [hm, Ne.symm h]

theorem addFunctions_nodup {ps : List GPackage}
    (h : (ps.map GPackage.name).Nodup) (k : String) (fns : List GFunction) :
    ((addFunctions ps k fns).map GPackage.name).Nodup := by
  rw [addFunctions_map_name]
  by_cases hm : k ∈ ps.map GPackage.name
  · simpa [hm] using h
  · simp [hm, List.nodup_append, h]

theorem convertProfile_nodup {f : String → GoResult (List FuncExtent)}
    {ps : List GPackage} {p : Profile} {a k : String} {out : List GPackage}
    (hv : convertProfile f ps p a k = .ok out)
    (h : (ps.map GPackage.name).Nodup) :
    (out.map GPackage.name).Nodup := by
  unfold convertProfile at hv
  cases hf : f a with
  | ok exts =>
      rw [hf] at hv
      simp only [GoResult.bind] at hv
      cases hv
      exact addFunctions_nodup h _ _
  | err m => rw [hf] at hv; exact absurd hv (by simp [GoResult.bind])
  | panicked m => rw [hf] at hv; exact absurd hv (by simp [GoResult.bind])

theorem entryFiles_nodup (f : String → GoResult (List FuncExtent))
    (p : Profile) (kp fn : String) :
    ∀ (files : List String) (ps out : List GPackage),
      entryFiles f p kp fn files ps = .ok out →
      (ps.map GPackage.name).Nodup → (out.map GPackage.name).Nodup := by
  intro files
  induction files with
  | nil =>
      intro ps out hv h
      simp only [entryFiles] at hv
      cases hv
      exact h
  | cons ab rest ih =>
      intro ps out hv h
      simp only [entryFiles] at hv
      by_cases hb : pathBase ab = fn
      · rw [if_pos hb] at hv
        cases hcp : convertProfile f ps p ab kp with
        | ok ps2 =>
            rw [hcp] at hv
            exact ih ps2 out hv (convertProfile_nodup hcp h)
        | err m => rw [hcp] at hv; exact absurd hv (by simp)
        | panicked m => rw [hcp] at hv; exact absurd hv (by simp)
      · rw [if_neg hb] at hv
        exact ih ps out hv h

theorem profileEntry_nodup {f : String → GoResult (List FuncExtent)}
    {pkgmap : List (String × GoPkg)} {ps : List GPackage} {p : Profile}
    {out : List GPackage}
    (hv : profileEntry f pkgmap ps p = .ok out)
    (h : (ps.map GPackage.name).Nodup) :
    (out.map GPackage.name).Nodup := by
  simp only [profileEntry] at hv
  cases hlk : lookupAssoc pkgmap (trimSlashSuffix (pathSplit p.fileName).1) with
  | none => rw [hlk] at hv; exact absurd hv (by simp)
  | some pkg =>
      rw [hlk] at hv
      exact entryFiles_nodup f p pkg.pkgPath (pathSplit p.fileName).2
        pkg.compiledGoFiles ps out hv h

theorem convertAll_nodup {f : String → GoResult (List FuncExtent)}
    {pkgmap : List (String × GoPkg)} :
    ∀ (profiles : List Profile) (ps out : List GPackage),
      convertAll f pkgmap profiles ps = .ok out →
      (ps.map GPackage.name).Nodup → (out.map GPackage.name).Nodup := by
  intro profiles
  induction profiles with
  | nil =>
      intro ps out hv h
      simp only [convertAll] at hv
      cases hv
      exact h
  | cons p rest ih =>
      intro ps out hv h
      simp only [convertAll] at hv
      cases hpe : profileEntry f pkgmap ps p with
      | ok ps2 =>
          rw [hpe] at hv
          exact ih ps2 out hv (profileEntry_nodup hpe h)
      | err m => rw [hpe] at hv; exact absurd hv (by simp)
      | panicked m => rw [hpe] at hv; exact absurd hv (by simp)

/-- C2.  Determinism of the full conversion: for a fixed environment (the
same profile inputs and unchanged source files, so the profile reader,
package resolver, parser and encoder are fixed deterministic functions),
the result of `ConvertProfiles` does not depend on the iteration order of
the `converter.packages` map range (`convert.go:96-98`), the only
unspecified order in the function; hence two runs produce identical
output bytes, and the order of packages, functions and statements in the
output is a function of the inputs alone. -/
theorem C2_conversion_deterministic (env : Env)
    (iters1 iters2 : Nat → List GPackage → List GPackage)
    (h1 : ∀ i l, (iters1 i l).Perm l) (h2 : ∀ i l, (iters2 i l).Perm l)
    (filenames : List String) :
    ConvertProfiles env iters1 filenames =
      ConvertProfiles env iters2 filenames := by
  unfold ConvertProfiles
  suffices hs : ∀ (i : Nat) (ps : List GPackage),
      ConvertProfilesAux env iters1 i filenames ps =
        ConvertProfilesAux env iters2 i filenames ps by
    rw [hs 0 []]
  induction filenames with
  | nil => intro i ps; rfl
  | cons f rest ih =>
      intro i ps
      have hone : convertOneFile env (iters1 i) f ps =
          convertOneFile env (iters2 i) f ps := by
        unfold convertOneFile
        cases env.parseProfiles f with
        | error m => rfl
        | ok profiles =>
          dsimp only
          cases env.loadPackages (uniqDirs profiles) with
          | error m => rfl
          | ok pkgs =>
            dsimp only
            cases hconv : convertAll env.findFuncs (buildPkgmap pkgs)
                profiles [] with
            | ok conv =>
                have hnod : (conv.map GPackage.name).Nodup :=
                  convertAll_nodup profiles [] conv hconv (by simp)
                have hperm : (iters1 i conv).Perm (iters2 i conv) :=
                  (h1 i conv).trans (h2 i conv).symm
                have hnod1 : ((iters1 i conv).map GPackage.name).Nodup :=
                  (((h1 i conv).map GPackage.name).symm).nodup hnod
                dsimp only
                rw [foldl_addPackage_perm hperm hnod1 ps]
            | err m => rfl
            | panicked m => rfl
      simp only [ConvertProfilesAux]
      rw [hone]
      cases convertOneFile env (iters2 i) f ps with
      | ok ps2 => exact ih (i + 1) ps2
      | err m => rfl
      | panicked m => rfl

/-- Witness for C2 at a concrete environment: the identity iteration order
and the reversed iteration order give the same output. -/
theorem C2_conversion_deterministic_witness :
    ConvertProfiles
        ⟨fun _ => .ok [⟨"a/b/f.go", []⟩, ⟨"a/c/g.go", []⟩],
          fun _ => .ok [⟨"a/b", ["/s/a/b/f.go"]⟩, ⟨"a/c", ["/s/a/c/g.go"]⟩],
          fun _ => .ok [], fun ps => [ps.length]⟩
        (fun _ l => l) ["profile.out"] =
      ConvertProfiles
        ⟨fun _ => .ok [⟨"a/b/f.go", []⟩, ⟨"a/c/g.go", []⟩],
          fun _ => .ok [⟨"a/b", ["/s/a/b/f.go"]⟩, ⟨"a/c", ["/s/a/c/g.go"]⟩],
          fun _ => .ok [], fun ps => [ps.length]⟩
        (fun _ l => l.reverse) ["profile.out"] :=
  C2_conversion_deterministic _ _ _
    (fun i l => List.Perm.refl l) (fun i l => List.reverse_perm l) _

/-- C3 (code bug).  A coverage-profile entry whose directory is not among
the resolved packages: `pkgmap[pkgpath]` yields `nil` and
`pkg.CompiledGoFiles` (`convert.go:86-87`) dereferences it, so the whole
conversion dies with a runtime nil-pointer panic instead of returning the
descriptive `ResolutionError` the specification requires.  Evaluated at a
concrete input: one profile entry `foo/bar.go` and a resolver returning no
packages. -/
theorem C3_missing_package_panics :
    ConvertProfiles
        ⟨fun _ => .ok [⟨"foo/bar.go", []⟩], fun _ => .ok [],
          fun _ => .ok [], fun ps => [ps.length]⟩
        (fun _ l => l) ["cover.out"] = .panicked nilDeref ∧
    (ConvertProfiles
        ⟨fun _ => .ok [⟨"foo/bar.go", []⟩], fun _ => .ok [],
          fun _ => .ok [], fun ps => [ps.length]⟩
        (fun _ l => l) ["cover.out"]).isErr = false := by
  constructor
  · rfl
  · rfl

/-- C4 counterexample.  For the channel send whose channel operand spans
bytes 10-12 and whose value operand ends at byte 20 (so the whole
statement's extent is 10-20), `VisitStmt` records the extent of `s.Chan`
only (`convert.go:309-310`): the recorded end offset is 12, not the
statement's end 20 — the claim that the whole statement's extent
(including the arrow and value operand) is recorded is false. -/
theorem C4_counterexample :
    visitStmt ⟨0, fun _ => 1, fun p => p + 1⟩
        (.sendStmt ⟨10, 12⟩ ⟨16, 20⟩) =
      .ok [⟨10, 1, 11, 12, 1, 13⟩] ∧
    stmtEnd (.sendStmt ⟨10, 12⟩ ⟨16, 20⟩) = 20 ∧ (12 : Nat) ≠ 20 := by
  refine ⟨?_, rfl, by decide⟩
  simp [visitStmt, exprExtent, mkExtent, FileSet.position]

/-- C4 amended.  For every channel-send statement the Extractor records
exactly one extent, the channel expression's own extent (excluding the
send arrow and the value operand), and for every increment/decrement
statement it records the operand expression's own extent (excluding the
`++`/`--` token): `collectExpr(s.Chan)` and `collectExpr(s.X)`
(`convert.go:309-312`). -/
theorem C4_send_incdec_operand_extent (fs : FileSet) (ch v x : Expr)
    (tokPos : Nat) :
    visitStmt fs (.sendStmt ch v) = .ok [exprExtent fs ch] ∧
    visitStmt fs (.incDecStmt x tokPos) = .ok [exprExtent fs x] := by
  constructor <;> simp [visitStmt]

theorem backupToElse_eq : backupToElse = 5 := rfl

theorem visitElse_eq_rewrite (fs : FileSet) (e : Stmt) :
    visitElse fs e = GoResult.bind (rewriteElse e) (visitStmt fs) := by
  cases e with
  | ifStmt p i c b el =>
      simp only [visitElse, rewriteElse, GoResult.bind, visitStmt, visitList]
      cases visitStmt fs (.ifStmt p i c b el) <;> simp [GoResult.bind]
  | blockStmt l xs r =>
      simp only [visitElse, rewriteElse, GoResult.bind, visitStmt]
  | declStmt d => simp [visitElse, rewriteElse, GoResult.bind]
  | emptyStmt a b => simp [visitElse, rewriteElse, GoResult.bind]
  | labeledStmt a b => simp [visitElse, rewriteElse, GoResult.bind]
  | exprStmt a => simp [visitElse, rewriteElse, GoResult.bind]
  | sendStmt a b => simp [visitElse, rewriteElse, GoResult.bind]
  | incDecStmt a b => simp [visitElse, rewriteElse, GoResult.bind]
  | assignStmt a b c d => simp [visitElse, rewriteElse, GoResult.bind]
  | goStmt a b => simp [visitElse, rewriteElse, GoResult.bind]
  | deferStmt a b => simp [visitElse, rewriteElse, GoResult.bind]
  | returnStmt a b => simp [visitElse, rewriteElse, GoResult.bind]
  | branchStmt a b c => simp [visitElse, rewriteElse, GoResult.bind]
  | caseClause a b c => simp [visitElse, rewriteElse, GoResult.bind]
  | switchStmt a b c => simp [visitElse, rewriteElse, GoResult.bind]
  | typeSwitchStmt a b c d => simp [visitElse, rewriteElse, GoResult.bind]
  | commClause a b c => simp [visitElse, rewriteElse, GoResult.bind]
  | selectStmt a b => simp [visitElse, rewriteElse, GoResult.bind]
  | forStmt a b c d e => simp [visitElse, rewriteElse, GoResult.bind]
  | rangeStmt a b c => simp [visitElse, rewriteElse, GoResult.bind]

theorem rewriteElse_ok {els els2 : Stmt} (hw : rewriteElse els = .ok els2) :
    (∃ p i c b e, els = .ifStmt p i c b e ∧
      els2 = .blockStmt (p - backupToElse) [els] (stmtEnd els)) ∨
    (∃ l xs r, els = .blockStmt l xs r ∧
      els2 = .blockStmt (l - backupToElse) xs r) := by
  cases els with
  | ifStmt p i c b e =>
      left
      refine ⟨p, i, c, b, e, rfl, ?_⟩
      simp only [rewriteElse, GoResult.ok.injEq] at hw
      exact hw.symm
  | blockStmt l xs r =>
      right
      refine ⟨l, xs, r, rfl, ?_⟩
      simp only [rewriteElse, GoResult.ok.injEq] at hw
      exact hw.symm
  | declStmt d => simp [rewriteElse] at hw
  | emptyStmt a b => simp [rewriteElse] at hw
  | labeledStmt a b => simp [rewriteElse] at hw
  | exprStmt a => simp [rewriteElse] at hw
  | sendStmt a b => simp [rewriteElse] at hw
  | incDecStmt a b => simp [rewriteElse] at hw
  | assignStmt a b c d => simp [rewriteElse] at hw
  | goStmt a b => simp [rewriteElse] at hw
  | deferStmt a b => simp [rewriteElse] at hw
  | returnStmt a b => simp [rewriteElse] at hw
  | branchStmt a b c => simp [rewriteElse] at hw
  | caseClause a b c => simp [rewriteElse] at hw
  | switchStmt a b c => simp [rewriteElse] at hw
  | typeSwitchStmt a b c d => simp [rewriteElse] at hw
  | commClause a b c => simp [rewriteElse] at hw
  | selectStmt a b => simp [rewriteElse] at hw
  | forStmt a b c d e => simp [rewriteElse] at hw
  | rangeStmt a b c => simp [rewriteElse] at hw

/-- C5.  Else-branch repositioning (`convert.go:338-355`): when the rewrite
of an else node succeeds, the rewritten node's start position is the else
node's first token backed up by the text length of `"else "`; an else-if
is wrapped in a synthesized block covering just the nested conditional
(list `[els]`, right brace at the nested node's end); a plain else block
keeps its list and right brace with only its start adjusted; and the
traversal recurses into the rewritten node (`v.VisitStmt(s.Else)`). -/
theorem C5_else_reposition (fs : FileSet) (els els2 : Stmt)
    (hw : rewriteElse els = .ok els2) (hp : backupToElse ≤ stmtPos els) :
    stmtPos els2 + backupToElse = stmtPos els ∧
    (∀ p i c b e, els = .ifStmt p i c b e →
      els2 = .blockStmt (p - backupToElse) [els] (stmtEnd els)) ∧
    (∀ l xs r, els = .blockStmt l xs r →
      els2 = .blockStmt (l - backupToElse) xs r) ∧
    visitElse fs els = visitStmt fs els2 := by
  have hvisit : visitElse fs els = visitStmt fs els2 := by
    rw [visitElse_eq_rewrite, hw]
    rfl
  rcases rewriteElse_ok hw with ⟨p, i, c, b, e, rfl, h2⟩ |
    ⟨l, xs, r, rfl, h2⟩
  · refine ⟨?_, ?_, ?_, hvisit⟩
    · subst h2
      simp only [stmtPos, backupToElse_eq] at hp ⊢
      omega
    · intro p2 i2 c2 b2 e2 heq
      cases heq
      exact h2
    · intro l2 xs2 r2 heq
      exact absurd heq (by simp)
  · refine ⟨?_, ?_, ?_, hvisit⟩
    · subst h2
      simp only [stmtPos, backupToElse_eq] at hp ⊢
      omega
    · intro p2 i2 c2 b2 e2 heq
      exact absurd heq (by simp)
    · intro l2 xs2 r2 heq
      cases heq
      exact h2

/-- Witness for C5 at a concrete `else if` chain: the else node starts at
position 100, the rewritten block starts at 95, five bytes earlier. -/
theorem C5_else_reposition_witness :
    stmtPos (Stmt.blockStmt 95
        [.ifStmt 100 none (some ⟨104, 107⟩) (.blockStmt 109 [] 110) none]
        111) + backupToElse =
      stmtPos (Stmt.ifStmt 100 none (some ⟨104, 107⟩)
        (.blockStmt 109 [] 110) none) :=
  (C5_else_reposition ⟨0, fun _ => 1, fun p => p⟩
      (.ifStmt 100 none (some ⟨104, 107⟩) (.blockStmt 109 [] 110) none)
      (.blockStmt 95
        [.ifStmt 100 none (some ⟨104, 107⟩) (.blockStmt 109 [] 110) none]
        111)
      rfl (by decide)).1

/-- C6.  Assignment statements: for any operator token `tok` (`=`, `:=`,
`+=`, ...), `VisitStmt` measures `collectToken(s.TokPos, "=")`
(`convert.go:313-314`), a fixed span from the operator position of byte
length exactly 1, independent of the operator's actual text length. -/
theorem C6_assignment_one_byte (fs : FileSet) (lhsPos tokPos : Nat)
    (tok : String) (rhsEnd : Nat) (h : fs.base ≤ tokPos) :
    visitStmt fs (.assignStmt lhsPos tokPos tok rhsEnd) =
      .ok [mkExtent fs tokPos (tokPos + 1)] ∧
    (mkExtent fs tokPos (tokPos + 1)).startOffset = tokPos - fs.base ∧
    (mkExtent fs tokPos (tokPos + 1)).endOffset =
      (mkExtent fs tokPos (tokPos + 1)).startOffset + 1 := by
  have hlen : ("=").length = 1 := rfl
  refine ⟨?_, rfl, ?_⟩
  · simp [visitStmt, tokenExtent, hlen]
  · simp only [mkExtent, FileSet.position]
    omega

/-- Witness for C6 with the two-character operator `:=` at position 42 and
file base 1: the recorded span is the single byte at offset 41. -/
theorem C6_assignment_one_byte_witness :
    visitStmt ⟨1, fun _ => 3, fun p => p⟩ (.assignStmt 40 42 ":=" 50) =
      .ok [mkExtent ⟨1, fun _ => 3, fun p => p⟩ 42 43] :=
  (C6_assignment_one_byte ⟨1, fun _ => 3, fun p => p⟩ 40 42 ":=" 50
    (by decide)).1

/-- C7.  Function naming (`convert.go:208-230`, `243-248`): a plain
declaration is named by its identifier; a pointer receiver `*T` collapses
to `T`, giving `T.<Name>`; a generically-indexed receiver `T[U]` gives
`T[U].<Name>`; any other receiver-type shape renders as the empty string,
giving the `.`-prefixed fallback `.<Name>`; a function literal is assigned
the synthetic name `@<line>:<column>` of its first token's position. -/
theorem C7_function_naming (p : Nat) (nm T U : String) (body : Stmt)
    (fs : FileSet) (lp : Nat) (lbody : Stmt) :
    functionName ⟨p, nm, none, body⟩ = nm ∧
    functionName ⟨p, nm, some (.star (.ident T)), body⟩ = T ++ "." ++ nm ∧
    functionName ⟨p, nm, some (.index (.ident T) (.ident U)), body⟩ =
      T ++ "[" ++ U ++ "]" ++ "." ++ nm ∧
    functionName ⟨p, nm, some .other, body⟩ = "." ++ nm ∧
    funcNodeName fs (.flit lp lbody) =
      "@" ++ toString (fs.lineOf lp) ++ ":" ++ toString (fs.colOf lp) := by
  refine ⟨rfl, rfl, ?_, ?_, ?_⟩
  · simp [functionName, exprName, String.append_assoc]
  · rfl
  · rfl

/-- C8 counterexample.  For an if statement whose else branch is an
expression statement (neither an if nor a block), the extent rewriting
panics with `"unexpected node type in if"` (`convert.go:352`), aborting
the traversal; no error value is returned, so the claim that an
`InternalInvariantError` is returned as an explicit error result is
false. -/
theorem C8_counterexample :
    visitStmt ⟨0, fun _ => 1, fun p => p⟩
        (.ifStmt 10 none (some ⟨13, 14⟩) (.blockStmt 15 [] 16)
          (some (.exprStmt ⟨30, 35⟩))) =
      .panicked "unexpected node type in if" ∧
    (visitStmt ⟨0, fun _ => 1, fun p => p⟩
        (.ifStmt 10 none (some ⟨13, 14⟩) (.blockStmt 15 [] 16)
          (some (.exprStmt ⟨30, 35⟩)))).isErr = false := by
  have h : visitStmt ⟨0, fun _ => 1, fun p => p⟩
      (.ifStmt 10 none (some ⟨13, 14⟩) (.blockStmt 15 [] 16)
        (some (.exprStmt ⟨30, 35⟩))) =
      .panicked "unexpected node type in if" := by
    simp [visitStmt, visitList, visitElse, GoResult.bind]
  exact ⟨h, by rw [h]; rfl⟩

/-- C8 amended.  When the else branch of an if statement is neither an
if statement nor a block, the rewrite panics with message
`"unexpected node type in if"` — an uncontrolled abort of the traversal
(no `error` value is produced anywhere on that path), not an explicit
error result. -/
theorem C8_malformed_else_panics (fs : FileSet) (p : Nat) (c : Expr)
    (body : Stmt) (bexts : List StmtExtent) (e : Stmt)
    (hbody : visitStmt fs body = .ok bexts)
    (hshape : isIfOrBlock e = false) :
    rewriteElse e = .panicked "unexpected node type in if" ∧
    visitStmt fs (.ifStmt p none (some c) body (some e)) =
      .panicked "unexpected node type in if" := by
  have hre : rewriteElse e = .panicked "unexpected node type in if" := by
    cases e <;> simp_all [isIfOrBlock, rewriteElse]
  have hve : visitElse fs e = .panicked "unexpected node type in if" := by
    rw [visitElse_eq_rewrite, hre]
    rfl
  refine ⟨hre, ?_⟩
  simp [visitStmt, GoResult.bind, hbody, hve]

/-- Witness for C8 amended at a concrete if statement with an
expression-statement else branch. -/
theorem C8_malformed_else_panics_witness :
    visitStmt ⟨0, fun _ => 2, fun p => p⟩
        (.ifStmt 10 none (some ⟨13, 14⟩) (.blockStmt 15 [] 16)
          (some (.exprStmt ⟨30, 35⟩))) =
      .panicked "unexpected node type in if" :=
  (C8_malformed_else_panics ⟨0, fun _ => 2, fun p => p⟩ 10 ⟨13, 14⟩
      (.blockStmt 15 [] 16) [] (.exprStmt ⟨30, 35⟩)
      (by simp [visitStmt, visitList]) rfl).2

theorem bind_ok {α β : Type} {x : GoResult α} {f : α → GoResult β} {out : β}
    (h : GoResult.bind x f = .ok out) : ∃ a, x = .ok a ∧ f a = .ok out := by
  cases x with
  | ok a => exact ⟨a, rfl, h⟩
  | err m => simp [GoResult.bind] at h
  | panicked m => simp [GoResult.bind] at h

/-- All extents of a list lie inside the offsets of `[lo, hi]`. -/
def extsBounded (fs : FileSet) (lo hi : Nat) (exts : List StmtExtent) : Prop :=
  ∀ e ∈ exts, lo - fs.base ≤ e.startOffset ∧ e.endOffset ≤ hi - fs.base

theorem mkExtent_bounded {fs : FileSet} {lo hi p q : Nat}
    (hp : lo ≤ p) (hq : q ≤ hi) :
    lo - fs.base ≤ (mkExtent fs p q).startOffset ∧
    (mkExtent fs p q).endOffset ≤ hi - fs.base :=
  ⟨Nat.sub_le_sub_right hp fs.base, Nat.sub_le_sub_right hq fs.base⟩

theorem extsBounded_nil {fs : FileSet} {lo hi : Nat} :
    extsBounded fs lo hi [] := by
  intro e he
  exact absurd he (List.not_mem_nil e)

theorem extsBounded_singleton {fs : FileSet} {lo hi p q : Nat}
    (hp : lo ≤ p) (hq : q ≤ hi) :
    extsBounded fs lo hi [mkExtent fs p q] := by
  intro e he
  rw [List.mem_singleton] at he
  subst he
  exact mkExtent_bounded hp hq

theorem extsBounded_cons {fs : FileSet} {lo hi : Nat} {e0 : StmtExtent}
    {b : List StmtExtent}
    (h0 : lo - fs.base ≤ e0.startOffset ∧ e0.endOffset ≤ hi - fs.base)
    (hb : extsBounded fs lo hi b) : extsBounded fs lo hi (e0 :: b) := by
  intro e he
  rcases List.mem_cons.mp he with rfl | h
  · exact h0
  · exact hb e h

theorem extsBounded_append {fs : FileSet} {lo hi : Nat}
    {a b : List StmtExtent}
    (ha : extsBounded fs lo hi a) (hb : extsBounded fs lo hi b) :
    extsBounded fs lo hi (a ++ b) := by
  intro e he
  rcases List.mem_append.mp he with h | h
  · exact ha e h
  · exact hb e h


mutual
theorem visitStmt_bounded (fs : FileSet) (lo hi : Nat) :
    ∀ s : Stmt, wfStmt lo hi s = true →
      ∀ exts : List StmtExtent, visitStmt fs s = .ok exts →
        extsBounded fs lo hi exts
  | .declStmt d, hwf, exts, hv => by
      simp only [visitStmt] at hv
      simp only [wfStmt, wfExpr, Bool.and_eq_true, decide_eq_true_eq] at hwf
      cases hv
      exact extsBounded_singleton hwf.1 hwf.2
  | .emptyStmt semi impl, hwf, exts, hv => by
      simp only [visitStmt] at hv
      cases hv
      exact extsBounded_nil
  | .labeledStmt lab s1, hwf, exts, hv => by
      simp only [visitStmt] at hv
      simp only [wfStmt, Bool.and_eq_true] at hwf
      exact visitStmt_bounded fs lo hi s1 hwf.2 exts hv
  | .exprStmt x, hwf, exts, hv => by
      simp only [visitStmt] at hv
      simp only [wfStmt, wfExpr, Bool.and_eq_true, decide_eq_true_eq] at hwf
      cases hv
      exact extsBounded_singleton hwf.1 hwf.2
  | .sendStmt ch v, hwf, exts, hv => by
      simp only [visitStmt] at hv
      simp only [wfStmt, wfExpr, Bool.and_eq_true, decide_eq_true_eq] at hwf
      cases hv
      exact extsBounded_singleton hwf.1.1 hwf.1.2
  | .incDecStmt x tp, hwf, exts, hv => by
      simp only [visitStmt] at hv
      simp only [wfStmt, wfExpr, Bool.and_eq_true, decide_eq_true_eq] at hwf
      cases hv
      exact extsBounded_singleton hwf.1.1.1 hwf.1.1.2
  | .assignStmt lhsPos tokPos tok rhsEnd, hwf, exts, hv => by
      simp only [visitStmt] at hv
      simp only [wfStmt, Bool.and_eq_true, decide_eq_true_eq] at hwf
      obtain ⟨⟨⟨⟨h1, h2⟩, h3⟩, h4⟩, h5⟩ := hwf
      cases hv
      exact extsBounded_singleton h2 (by
        have hl : ("=").length = 1 := rfl
        omega)
  | .goStmt gp call, hwf, exts, hv => by
      simp only [visitStmt] at hv
      simp only [wfStmt, Bool.and_eq_true, decide_eq_true_eq] at hwf
      cases hv
      exact extsBounded_singleton hwf.1.1 (by
        have hl : ("go").length = 2 := rfl
        have := hwf.1.2
        omega)
  | .deferStmt dp call, hwf, exts, hv => by
      simp only [visitStmt] at hv
      simp only [wfStmt, Bool.and_eq_true, decide_eq_true_eq] at hwf
      cases hv
      exact extsBounded_singleton hwf.1.1 (by
        have hl : ("defer").length = 5 := rfl
        have := hwf.1.2
        omega)
  | .returnStmt rp results, hwf, exts, hv => by
      simp only [visitStmt] at hv
      simp only [wfStmt, Bool.and_eq_true, decide_eq_true_eq] at hwf
      cases hv
      exact extsBounded_singleton hwf.1.1 (by
        have hl : ("return").length = 6 := rfl
        have := hwf.1.2
        omega)
  | .branchStmt tp tok lab, hwf, exts, hv => by
      simp only [visitStmt] at hv
      simp only [wfStmt, Bool.and_eq_true, decide_eq_true_eq] at hwf
      obtain ⟨⟨⟨h1, h2⟩, h3⟩, h4⟩ := hwf
      have htok : extsBounded fs lo hi [tokenExtent fs tp "g"] :=
        extsBounded_singleton h1 (by
          have hl : ("g").length = 1 := rfl
          omega)
      cases lab with
      | none =>
          cases hv
          exact extsBounded_append extsBounded_nil htok
      | some l =>
          simp only [wfExprOpt, wfExpr, Bool.and_eq_true,
            decide_eq_true_eq] at h4
          cases hv
          exact extsBounded_append (extsBounded_singleton h4.1 h4.2) htok
  | .blockStmt lb list rb, hwf, exts, hv => by
      simp only [visitStmt] at hv
      simp only [wfStmt, Bool.and_eq_true, decide_eq_true_eq] at hwf
      exact visitList_bounded fs lo hi list hwf.2 exts hv
  | .ifStmt p (some i) c body none, hwf, exts, hv => by
      rw [visitStmt.eq_def] at hv
      simp only [wfStmt, Bool.and_eq_true, decide_eq_true_eq] at hwf
      obtain ⟨⟨⟨⟨hlo, hini⟩, hc⟩, hbody⟩, hels⟩ := hwf
      simp only [wfOpt] at hini
      obtain ⟨a, ha, hrest⟩ := bind_ok hv
      obtain ⟨b, hb, hrest2⟩ := bind_ok hrest
      cases hrest2
      exact extsBounded_append (visitStmt_bounded fs lo hi i hini a ha)
        (visitStmt_bounded fs lo hi body hbody b hb)
  | .ifStmt p (some i) c body (some e), hwf, exts, hv => by
      rw [visitStmt.eq_def] at hv
      simp only [wfStmt, Bool.and_eq_true, decide_eq_true_eq] at hwf
      obtain ⟨⟨⟨⟨hlo, hini⟩, hc⟩, hbody⟩, hels⟩ := hwf
      simp only [wfOpt] at hini hels
      obtain ⟨a, ha, hrest⟩ := bind_ok hv
      obtain ⟨b, hb, hrest2⟩ := bind_ok hrest
      obtain ⟨cc, hcc, h3⟩ := bind_ok hrest2
      cases h3
      exact extsBounded_append (extsBounded_append
          (visitStmt_bounded fs lo hi i hini a ha)
          (visitStmt_bounded fs lo hi body hbody b hb))
        (visitElse_bounded fs lo hi e hels cc hcc)
  | .ifStmt p none c body none, hwf, exts, hv => by
      rw [visitStmt.eq_def] at hv
      simp only [wfStmt, Bool.and_eq_true, decide_eq_true_eq] at hwf
      obtain ⟨⟨⟨⟨hlo, hini⟩, hc⟩, hbody⟩, hels⟩ := hwf
      obtain ⟨a, ha, hrest⟩ := bind_ok hv
      obtain ⟨b, hb, hrest2⟩ := bind_ok hrest
      cases hrest2
      have hba : extsBounded fs lo hi a := by
        cases c with
        | some ce =>
            simp only [wfExprOpt, wfExpr, Bool.and_eq_true,
              decide_eq_true_eq] at hc
            cases ha
            exact extsBounded_singleton hc.1 hc.2
        | none =>
            cases ha
            exact extsBounded_nil
      exact extsBounded_append hba
        (visitStmt_bounded fs lo hi body hbody b hb)
  | .ifStmt p none c body (some e), hwf, exts, hv => by
      rw [visitStmt.eq_def] at hv
      simp only [wfStmt, Bool.and_eq_true, decide_eq_true_eq] at hwf
      obtain ⟨⟨⟨⟨hlo, hini⟩, hc⟩, hbody⟩, hels⟩ := hwf
      simp only [wfOpt] at hels
      obtain ⟨a, ha, hrest⟩ := bind_ok hv
      obtain ⟨b, hb, hrest2⟩ := bind_ok hrest
      obtain ⟨cc, hcc, h3⟩ := bind_ok hrest2
      cases h3
      have hba : extsBounded fs lo hi a := by
        cases c with
        | some ce =>
            simp only [wfExprOpt, wfExpr, Bool.and_eq_true,
              decide_eq_true_eq] at hc
            cases ha
            exact extsBounded_singleton hc.1 hc.2
        | none =>
            cases ha
            exact extsBounded_nil
      exact extsBounded_append (extsBounded_append hba
          (visitStmt_bounded fs lo hi body hbody b hb))
        (visitElse_bounded fs lo hi e hels cc hcc)
  | .caseClause cp colon body, hwf, exts, hv => by
      simp only [visitStmt] at hv
      simp only [wfStmt, Bool.and_eq_true, decide_eq_true_eq] at hwf
      exact visitList_bounded fs lo hi body hwf.2 exts hv
  | .switchStmt sp (some i) body, hwf, exts, hv => by
      rw [visitStmt.eq_def] at hv
      simp only [wfStmt, Bool.and_eq_true, decide_eq_true_eq] at hwf
      obtain ⟨⟨⟨h1, h2⟩, hini⟩, hbody⟩ := hwf
      simp only [wfOpt] at hini
      obtain ⟨a, ha, hrest⟩ := bind_ok hv
      obtain ⟨b, hb, h3⟩ := bind_ok hrest
      cases h3
      exact extsBounded_append (visitStmt_bounded fs lo hi i hini a ha)
        (visitStmt_bounded fs lo hi body hbody b hb)
  | .switchStmt sp none body, hwf, exts, hv => by
      rw [visitStmt.eq_def] at hv
      simp only [wfStmt, Bool.and_eq_true, decide_eq_true_eq] at hwf
      obtain ⟨⟨⟨h1, h2⟩, hini⟩, hbody⟩ := hwf
      obtain ⟨a, ha, hrest⟩ := bind_ok hv
      obtain ⟨b, hb, h3⟩ := bind_ok hrest
      cases h3
      cases ha
      exact extsBounded_append
        (extsBounded_singleton h1 (by
          have hl : ("switch").length = 6 := rfl
          omega))
        (visitStmt_bounded fs lo hi body hbody b hb)
  | .typeSwitchStmt sp (some i) assign body, hwf, exts, hv => by
      rw [visitStmt.eq_def] at hv
      simp only [wfStmt, Bool.and_eq_true, decide_eq_true_eq] at hwf
      obtain ⟨⟨⟨⟨h1, h2⟩, hini⟩, hassign⟩, hbody⟩ := hwf
      simp only [wfOpt] at hini
      obtain ⟨a, ha, hrest⟩ := bind_ok hv
      obtain ⟨b, hb, h3⟩ := bind_ok hrest
      cases h3
      exact extsBounded_append (visitStmt_bounded fs lo hi i hini a ha)
        (visitStmt_bounded fs lo hi body hbody b hb)
  | .typeSwitchStmt sp none (some asg) body, hwf, exts, hv => by
      rw [visitStmt.eq_def] at hv
      simp only [wfStmt, Bool.and_eq_true, decide_eq_true_eq] at hwf
      obtain ⟨⟨⟨⟨h1, h2⟩, hini⟩, hassign⟩, hbody⟩ := hwf
      simp only [wfOpt] at hassign
      obtain ⟨a, ha, hrest⟩ := bind_ok hv
      obtain ⟨b, hb, h3⟩ := bind_ok hrest
      cases h3
      exact extsBounded_append (visitStmt_bounded fs lo hi asg hassign a ha)
        (visitStmt_bounded fs lo hi body hbody b hb)
  | .typeSwitchStmt sp none none body, hwf, exts, hv => by
      rw [visitStmt.eq_def] at hv
      simp only [wfStmt, Bool.and_eq_true, decide_eq_true_eq] at hwf
      obtain ⟨⟨⟨⟨h1, h2⟩, hini⟩, hassign⟩, hbody⟩ := hwf
      obtain ⟨a, ha, hrest⟩ := bind_ok hv
      obtain ⟨b, hb, h3⟩ := bind_ok hrest
      cases h3
      cases ha
      exact extsBounded_append
        (extsBounded_singleton h1 (by
          have hl : ("switch").length = 6 := rfl
          omega))
        (visitStmt_bounded fs lo hi body hbody b hb)
  | .commClause cp colon body, hwf, exts, hv => by
      simp only [visitStmt] at hv
      simp only [wfStmt, Bool.and_eq_true, decide_eq_true_eq] at hwf
      exact visitList_bounded fs lo hi body hwf.2 exts hv
  | .selectStmt sp body, hwf, exts, hv => by
      simp only [visitStmt] at hv
      simp only [wfStmt, Bool.and_eq_true, decide_eq_true_eq] at hwf
      obtain ⟨⟨h1, h2⟩, hbody⟩ := hwf
      obtain ⟨b, hb, h3⟩ := bind_ok hv
      cases h3
      refine extsBounded_cons (mkExtent_bounded h1 (by
        have hl : ("select").length = 6 := rfl
        omega)) ?_
      exact visitStmt_bounded fs lo hi body hbody b hb
  | .forStmt fp (some i) c post body, hwf, exts, hv => by
      rw [visitStmt.eq_def] at hv
      simp only [wfStmt, Bool.and_eq_true, decide_eq_true_eq] at hwf
      obtain ⟨⟨⟨⟨⟨h1, h2⟩, hini⟩, hc⟩, hpost⟩, hbody⟩ := hwf
      simp only [wfOpt] at hini
      obtain ⟨a, ha, hrest⟩ := bind_ok hv
      obtain ⟨b, hb, h3⟩ := bind_ok hrest
      cases h3
      exact extsBounded_append (visitStmt_bounded fs lo hi i hini a ha)
        (visitStmt_bounded fs lo hi body hbody b hb)
  | .forStmt fp none c (some pst) body, hwf, exts, hv => by
      rw [visitStmt.eq_def] at hv
      simp only [wfStmt, Bool.and_eq_true, decide_eq_true_eq] at hwf
      obtain ⟨⟨⟨⟨⟨h1, h2⟩, hini⟩, hc⟩, hpost⟩, hbody⟩ := hwf
      simp only [wfOpt] at hpost
      obtain ⟨a, ha, hrest⟩ := bind_ok hv
      obtain ⟨b, hb, h3⟩ := bind_ok hrest
      cases h3
      have hba : extsBounded fs lo hi a := by
        cases c with
        | some ce =>
            simp only [wfExprOpt, wfExpr, Bool.and_eq_true,
              decide_eq_true_eq] at hc
            cases ha
            exact extsBounded_singleton hc.1 hc.2
        | none =>
            exact visitStmt_bounded fs lo hi pst hpost a ha
      exact extsBounded_append hba
        (visitStmt_bounded fs lo hi body hbody b hb)
  | .forStmt fp none c none body, hwf, exts, hv => by
      rw [visitStmt.eq_def] at hv
      simp only [wfStmt, Bool.and_eq_true, decide_eq_true_eq] at hwf
      obtain ⟨⟨⟨⟨⟨h1, h2⟩, hini⟩, hc⟩, hpost⟩, hbody⟩ := hwf
      obtain ⟨a, ha, hrest⟩ := bind_ok hv
      obtain ⟨b, hb, h3⟩ := bind_ok hrest
      cases h3
      have hba : extsBounded fs lo hi a := by
        cases c with
        | some ce =>
            simp only [wfExprOpt, wfExpr, Bool.and_eq_true,
              decide_eq_true_eq] at hc
            cases ha
            exact extsBounded_singleton hc.1 hc.2
        | none =>
            cases ha
            exact extsBounded_singleton h1 (by
              have hl : ("for").length = 3 := rfl
              omega)
      exact extsBounded_append hba
        (visitStmt_bounded fs lo hi body hbody b hb)
  | .rangeStmt fp x body, hwf, exts, hv => by
      simp only [visitStmt] at hv
      simp only [wfStmt, wfExpr, Bool.and_eq_true, decide_eq_true_eq] at hwf
      obtain ⟨⟨⟨h1, h2⟩, hx⟩, hbody⟩ := hwf
      obtain ⟨b, hb, h3⟩ := bind_ok hv
      cases h3
      refine extsBounded_cons (mkExtent_bounded hx.1 hx.2) ?_
      exact visitStmt_bounded fs lo hi body hbody b hb
termination_by s _ _ _ => sizeOf s
decreasing_by all_goals (simp_wf <;> omega)

theorem visitList_bounded (fs : FileSet) (lo hi : Nat) :
    ∀ l : List Stmt, wfList lo hi l = true →
      ∀ exts : List StmtExtent, visitList fs l = .ok exts →
        extsBounded fs lo hi exts
  | [], hwf, exts, hv => by
      simp only [visitList] at hv
      cases hv
      exact extsBounded_nil
  | s :: rest, hwf, exts, hv => by
      simp only [visitList] at hv
      simp only [wfList, Bool.and_eq_true] at hwf
      obtain ⟨a, ha, hrest⟩ := bind_ok hv
      obtain ⟨b, hb, h3⟩ := bind_ok hrest
      cases h3
      exact extsBounded_append
        (visitStmt_bounded fs lo hi s hwf.1 a ha)
        (visitList_bounded fs lo hi rest hwf.2 b hb)
termination_by l _ _ _ => sizeOf l
decreasing_by all_goals (simp_wf <;> omega)

theorem visitElse_bounded (fs : FileSet) (lo hi : Nat) :
    ∀ e : Stmt, wfStmt lo hi e = true →
      ∀ exts : List StmtExtent, visitElse fs e = .ok exts →
        extsBounded fs lo hi exts
  | .ifStmt p ini c body els, hwf, exts, hv => by
      simp only [visitElse] at hv
      exact visitStmt_bounded fs lo hi (.ifStmt p ini c body els) hwf exts hv
  | .blockStmt lb list rb, hwf, exts, hv => by
      simp only [visitElse] at hv
      simp only [wfStmt, Bool.and_eq_true, decide_eq_true_eq] at hwf
      exact visitList_bounded fs lo hi list hwf.2 exts hv
  | .declStmt d, hwf, exts, hv => absurd hv (by simp [visitElse])
  | .emptyStmt a b, hwf, exts, hv => absurd hv (by simp [visitElse])
  | .labeledStmt a b, hwf, exts, hv => absurd hv (by simp [visitElse])
  | .exprStmt a, hwf, exts, hv => absurd hv (by simp [visitElse])
  | .sendStmt a b, hwf, exts, hv => absurd hv (by simp [visitElse])
  | .incDecStmt a b, hwf, exts, hv => absurd hv (by simp [visitElse])
  | .assignStmt a b c d, hwf, exts, hv => absurd hv (by simp [visitElse])
  | .goStmt a b, hwf, exts, hv => absurd hv (by simp [visitElse])
  | .deferStmt a b, hwf, exts, hv => absurd hv (by simp [visitElse])
  | .returnStmt a b, hwf, exts, hv => absurd hv (by simp [visitElse])
  | .branchStmt a b c, hwf, exts, hv => absurd hv (by simp [visitElse])
  | .caseClause a b c, hwf, exts, hv => absurd hv (by simp [visitElse])
  | .switchStmt a b c, hwf, exts, hv => absurd hv (by simp [visitElse])
  | .typeSwitchStmt a b c d, hwf, exts, hv => absurd hv (by simp [visitElse])
  | .commClause a b c, hwf, exts, hv => absurd hv (by simp [visitElse])
  | .selectStmt a b, hwf, exts, hv => absurd hv (by simp [visitElse])
  | .forStmt a b c d e, hwf, exts, hv => absurd hv (by simp [visitElse])
  | .rangeStmt a b c, hwf, exts, hv => absurd hv (by simp [visitElse])
termination_by e _ _ _ => sizeOf e + 1
decreasing_by all_goals (simp_wf <;> omega)
end

/-- C9.  Containment invariant: for a discovered function whose body is
positionally well-formed inside the function's own extent (what the source
parser guarantees), every statement extent the Extractor records — the
expression extents, the fixed-length token spans, and the extents visited
through the else-keyword back-up — has its start byte offset at or after
the function's start offset and its end byte offset at or before the
function's end offset. -/
theorem C9_containment (fs : FileSet) (n : FuncNode) (fe : FuncExtent)
    (hwf : wfStmt (nodePos n) (nodeEnd n) (nodeBody n) = true)
    (hv : visitFunc fs n = .ok fe) :
    ∀ se ∈ fe.stmts, fe.startOffset ≤ se.startOffset ∧
      se.endOffset ≤ fe.endOffset := by
  unfold visitFunc at hv
  obtain ⟨exts, hex, hok⟩ := bind_ok hv
  cases hok
  intro se hse
  exact visitStmt_bounded fs (nodePos n) (nodeEnd n) (nodeBody n) hwf
    exts hex se hse

/-- Witness for C9 at a concrete function literal spanning bytes 0-26 whose
body records the statement extent 12-20: `0 ≤ 12` and `20 ≤ 26`. -/
theorem C9_containment_witness :
    visitFunc ⟨0, fun _ => 1, fun p => p⟩
        (.flit 0 (.blockStmt 10 [.exprStmt ⟨12, 20⟩] 25)) =
      .ok ⟨0, 1, 0, 26, 1, 26, "@1:0", [⟨12, 1, 12, 20, 1, 20⟩]⟩ ∧
    ((0 : Nat) ≤ 12 ∧ (20 : Nat) ≤ 26) := by
  have hv : visitFunc ⟨0, fun _ => 1, fun p => p⟩
      (.flit 0 (.blockStmt 10 [.exprStmt ⟨12, 20⟩] 25)) =
      .ok ⟨0, 1, 0, 26, 1, 26, "@1:0", [⟨12, 1, 12, 20, 1, 20⟩]⟩ := by
    simp [visitFunc, visitStmt, visitList, GoResult.bind, funcNodeName,
      nodePos, nodeBody, nodeEnd, stmtEnd, FileSet.position, exprExtent,
      mkExtent]
    decide
  refine ⟨hv, ?_⟩
  exact C9_containment ⟨0, fun _ => 1, fun p => p⟩
    (.flit 0 (.blockStmt 10 [.exprStmt ⟨12, 20⟩] 25))
    ⟨0, 1, 0, 26, 1, 26, "@1:0", [⟨12, 1, 12, 20, 1, 20⟩]⟩
    (by simp [wfStmt, wfList, wfExpr, nodePos, nodeBody, nodeEnd, stmtEnd])
    hv ⟨12, 1, 12, 20, 1, 20⟩ (by simp)

theorem entryFiles_skip (findFuncs : String → GoResult (List FuncExtent))
    (p : Profile) (kp fn : String) :
    ∀ files : List String, (∀ f ∈ files, pathBase f ≠ fn) →
      ∀ packages : List GPackage,
        entryFiles findFuncs p kp fn files packages = .ok packages := by
  intro files
  induction files with
  | nil => intro h packages; rfl
  | cons ab rest ih =>
      intro h packages
      simp only [entryFiles]
      rw [if_neg (h ab (by simp))]
      exact ih (fun f hf => h f (by simp [hf])) packages

/-- C10 (implicit).  A profile entry whose directory resolves to a package
but whose base file name matches none of that package's compiled source
files: the inner loop (`convert.go:87-93`) never fires, so the entry
contributes no functions, the package accumulator is unchanged, and no
error is raised — the conversion continues and still returns success. -/
theorem C10_unmatched_filename_silent
    (findFuncs : String → GoResult (List FuncExtent))
    (pkgmap : List (String × GoPkg)) (packages : List GPackage)
    (p : Profile) (pkg : GoPkg)
    (hfound : lookupAssoc pkgmap
      (trimSlashSuffix (pathSplit p.fileName).1) = some pkg)
    (hnomatch : ∀ f ∈ pkg.compiledGoFiles,
      pathBase f ≠ (pathSplit p.fileName).2) :
    profileEntry findFuncs pkgmap packages p = .ok packages := by
  simp only [profileEntry]
  rw [hfound]
  exact entryFiles_skip findFuncs p pkg.pkgPath (pathSplit p.fileName).2
    pkg.compiledGoFiles hnomatch packages

/-- Witness for C10: package `foo` resolves with one compiled file
`other.go`, the entry names `foo/bar.go`; the entry is skipped silently
and the accumulator is returned unchanged. -/
theorem C10_unmatched_filename_silent_witness :
    profileEntry (fun _ => .ok [])
      [("foo", ⟨"foo", ["/src/foo/other.go"]⟩)] [] ⟨"foo/bar.go", []⟩ =
      .ok [] :=
  C10_unmatched_filename_silent (fun _ => .ok [])
    [("foo", ⟨"foo", ["/src/foo/other.go"]⟩)] [] ⟨"foo/bar.go", []⟩
    ⟨"foo", ["/src/foo/other.go"]⟩ rfl (by decide)
